import Mathlib

/-!
Shallow embedding of the core algorithms of the 7k card matching solver
(src/solver.py and src/matching.py), together with proofs of the behavioural
properties stated in the specification.

Conventions of the embedding:
* pixel coordinates and box extents are integers (the Python code builds them
  from array indices and template sizes);
* floating point scores (template correlation, mean differences, brightness
  means) are modelled as rationals, which preserves ordering and arithmetic;
* the image processing primitives themselves (template matching, cropping,
  resizing) are opaque: functions are parameterised by the scores these
  primitives produce, and the control flow around them is translated verbatim;
* the stable sorts of Python (sorted with reverse, list.sort, np.lexsort) are
  modelled by a stable insertion sort, which computes the same list.
-/

namespace CardSolver

/-- Stable insertion of x into a list sorted by key in descending order:
x is placed after every element whose key is at least the key of x. -/
def insertDescBy {α : Type} (key : α → ℚ) (x : α) : List α → List α
  | [] => [x]
  | y :: ys => if key x ≤ key y then y :: insertDescBy key x ys else x :: y :: ys

/-- Stable descending sort by a rational key.  Models the Python calls
sorted(detections, key=..., reverse=True) in nms and scores.sort(key=...,
reverse=True) in find_pairs, both of which are stable descending sorts. -/
def sortDescBy {α : Type} (key : α → ℚ) (l : List α) : List α :=
  l.foldl (fun acc x => insertDescBy key x acc) []

/-- A scored detection (x, y, w, h, score) as produced by the template search
in detect_card_locations (src/solver.py line 247). -/
structure Det where
  x : ℤ
  y : ℤ
  w : ℤ
  h : ℤ
  score : ℚ
deriving DecidableEq, Repr

/-- Overlap fraction of detection d with the kept detection best:
intersection area divided by the area of the kept box
(src/solver.py lines 225 to 228). -/
def overlapFrac (best d : Det) : ℚ :=
  let x1 := max best.x d.x
  let y1 := max best.y d.y
  let x2 := min (best.x + best.w) (d.x + d.w)
  let y2 := min (best.y + best.h) (d.y + d.h)
  ((max 0 (x2 - x1) * max 0 (y2 - y1) : ℤ) : ℚ) / ((best.w * best.h : ℤ) : ℚ)

/-- The greedy suppression loop of CardSolver.nms (src/solver.py lines
220 to 230): repeatedly pop the head of the score sorted list, keep it, and
retain among the remaining detections only those whose overlap with the kept
one is strictly below the threshold.  The loop consumes at least one element
per iteration, so running it with the length of the list as fuel computes
the loop exactly; the zero fuel case on a nonempty list is never reached
from nmsWith. -/
def nmsLoop (t : ℚ) : ℕ → List Det → List Det
  | _, [] => []
  | 0, _ :: _ => []
  | fuel + 1, best :: rest =>
      best :: nmsLoop t fuel (rest.filter (fun d => decide (overlapFrac best d < t)))

/-- CardSolver.nms with an explicit overlap threshold
(src/solver.py lines 216 to 231). -/
def nmsWith (t : ℚ) (detections : List Det) : List Det :=
  nmsLoop t (sortDescBy Det.score detections).length (sortDescBy Det.score detections)

/-- CardSolver.nms at its default overlap threshold 0.3, the value used by
every call site. -/
def nms (detections : List Det) : List Det :=
  nmsWith (3/10) detections

/-- Distance of a detection count from the expected cell count 24, as computed
by abs(len(detections) - 24) in detect_card_locations. -/
def distTo24 (n : ℕ) : ℕ :=
  ((n : ℤ) - 24).natAbs

/-- The scale sweep loop of detect_card_locations (src/solver.py lines
236 to 252), parameterised by the list of raw detection lists that template
matching produced at each scale actually tried.  Each scale is suppressed
separately; a scale with exactly 24 suppressed detections is returned at
once; otherwise a scale replaces the running best when strictly closer to 24
or when the running best is empty. -/
def sweepGo : List (List Det) → List Det → List Det
  | [], best => best
  | raw :: rest, best =>
      if (nms raw).length = 24 then nms raw
      else if distTo24 (nms raw).length < distTo24 best.length ∨ best = [] then
        sweepGo rest (nms raw)
      else sweepGo rest best

/-- CardSolver.detect_card_locations (src/solver.py lines 233 to 252),
abstracted over the per scale raw detections. -/
def detect_card_locations (perScale : List (List Det)) : List Det :=
  sweepGo perScale []

/-- Modelled from the spec: the Localizer as §4.1 words it, pooling the
detections of all scales into one set and applying a single greedy
suppression to the pooled set.  This definition exists only to be compared
against detect_card_locations, which is the code. -/
def localizer_pooled_spec (perScale : List (List Det)) : List Det :=
  nms perScale.flatten

/-- The frame accumulation loop of solve_frames (src/solver.py lines
314 to 325): extend the pool with each sampled frame result and stop as soon
as the suppressed pool has exactly 24 detections. -/
def accumLoop : List (List Det) → List Det → List Det
  | [], all => all
  | fd :: rest, all =>
      let all2 := all ++ fd
      if (nms all2).length = 24 then all2 else accumLoop rest all2

/-- Truncation toward zero of a rational, as the Python int() conversion
applied to a nonnegative float in the row binning. -/
def pyTrunc (q : ℚ) : ℤ :=
  Int.tdiv q.num q.den

/-- Row bucket of a vertical centroid coordinate: int(cy / bin_size)
(src/solver.py line 263). -/
def binIndex (binSize : ℚ) (cy : ℚ) : ℤ :=
  pyTrunc (cy / binSize)

/-- Lexicographic sort key of a centroid: row bucket of the vertical
coordinate first, horizontal coordinate second.  np.lexsort is passed the
keys in the order (x, binned y) and sorts by the last key first. -/
def lexKey (binSize : ℚ) (c : ℚ × ℚ) : ℤ × ℚ :=
  (binIndex binSize c.2, c.1)

/-- Boolean comparison of two lexicographic keys. -/
def keyLeB (a b : ℤ × ℚ) : Bool :=
  decide (a.1 < b.1 ∨ (a.1 = b.1 ∧ a.2 ≤ b.2))

/-- Stable insertion for the index sort: index x is placed after every index
y already present whose key is at most the key of x. -/
def insIdx (le : ℕ → ℕ → Bool) (x : ℕ) : List ℕ → List ℕ
  | [] => [x]
  | y :: ys => if le y x then y :: insIdx le x ys else x :: y :: ys

/-- Stable ascending sort of a list of indices by a boolean comparison,
modelling the stable np.lexsort permutation. -/
def sortIdx (le : ℕ → ℕ → Bool) (l : List ℕ) : List ℕ :=
  l.foldl (fun acc x => insIdx le x acc) []

/-- The permutation np.lexsort computes on the centroid list in
detections_to_polygons (src/solver.py line 263): stable ascending sort of
the positions by (row bucket of cy, cx). -/
def lexsortPerm (binSize : ℚ) (cents : List (ℚ × ℚ)) : List ℕ :=
  sortIdx
    (fun i j =>
      keyLeB (lexKey binSize (cents.getD i (0, 0))) (lexKey binSize (cents.getD j (0, 0))))
    (List.range cents.length)

/-- Corner polygon of a detection (src/solver.py line 258). -/
def polyOf (d : Det) : List (ℤ × ℤ) :=
  [(d.x, d.y), (d.x + d.w, d.y), (d.x + d.w, d.y + d.h), (d.x, d.y + d.h)]

/-- Centroid of a polygon: componentwise mean of its corners, as
np.mean(poly, axis=0). -/
def centroidOf (p : List (ℤ × ℤ)) : ℚ × ℚ :=
  (((p.map (fun q => (q.1 : ℚ))).sum) / p.length,
   ((p.map (fun q => (q.2 : ℚ))).sum) / p.length)

/-- Horizontal perturbation of a centroid list by a jitter list: each
horizontal coordinate is shifted by the matching jitter entry, vertical
coordinates are untouched. -/
def perturbX (cents : List (ℚ × ℚ)) (jit : List ℚ) : List (ℚ × ℚ) :=
  List.zipWith (fun c δ => (c.1 + δ, c.2)) cents jit

/-- CardSolver.detections_to_polygons (src/solver.py lines 254 to 264):
build corner polygons, compute the row bin size as half of the average
detected height, and order the polygons by the lexsort permutation of the
centroids. -/
def detections_to_polygons (dets : List Det) : List (List (ℤ × ℤ)) :=
  if dets = [] then []
  else
    let polys := dets.map polyOf
    let avgH : ℚ := ((dets.map (fun d => (d.h : ℚ))).sum) / dets.length
    let cents := polys.map centroidOf
    (lexsortPerm (avgH * (1/2)) cents).map (fun i => polys.getD i [])

/-- The layout update step of solve_frames (src/solver.py lines 325 to 330):
on an empty suppressed pool, keep the previous layout, or end the session
(none) when no previous layout exists; otherwise adopt the new polygons. -/
def solve_frames_layout (frameDets : List (List Det)) (prev : List (List (ℤ × ℤ))) :
    Option (List (List (ℤ × ℤ))) :=
  let finalDets := nms (accumLoop frameDets [])
  if finalDets = [] then (if prev = [] then none else some prev)
  else some (detections_to_polygons finalDets)

/-- Stability of one frame (src/solver.py lines 358 to 367): the frame is
stable when at least 22 of its per cell correlations against the face down
template are strictly above 0.6.  The list holds one correlation score per
cell whose crop was nonempty. -/
def stableFrame (scores : List ℚ) : Bool :=
  decide (22 ≤ (scores.filter (fun s => decide ((3 : ℚ)/5 < s))).length)

/-- The stable run scanning loop of solve_frames (src/solver.py lines
353 to 373), translated with the running state made explicit: acc is the
list of recorded runs, cur the start of the current stable run (none for
the Python sentinel -1), cnt the current stable count, i the index of the
next frame.  On exhaustion i equals the number of frames, so the final
append of (start, number of frames - 1) is written with i - 1. -/
def scanRuns (acc : List (ℕ × ℕ)) (cur : Option ℕ) (cnt : ℕ) (i : ℕ) :
    List Bool → List (ℕ × ℕ)
  | [] =>
      match cur with
      | some s => if 3 ≤ cnt then acc ++ [(s, i - 1)] else acc
      | none => acc
  | b :: rest =>
      if b then scanRuns acc (some (cur.getD i)) (cnt + 1) (i + 1) rest
      else
        match cur with
        | some s =>
            if 3 ≤ cnt then scanRuns (acc ++ [(s, i - 1)]) none 0 (i + 1) rest
            else scanRuns acc none 0 (i + 1) rest
        | none => scanRuns acc none 0 (i + 1) rest

/-- The list all_back_sequences computed by solve_frames from the per frame
stability bits. -/
def allBackSequences (bits : List Bool) : List (ℕ × ℕ) :=
  scanRuns [] none 0 0 bits

/-- Baseline frame index and start index chosen by solve_frames
(src/solver.py lines 375 to 379): the midpoint and the last frame of the
first recorded run, or frame 0 twice when no run was recorded. -/
def stabilizerResult (bits : List Bool) : ℕ × ℕ :=
  match allBackSequences bits with
  | [] => (0, 0)
  | (s, e) :: _ => ((s + e) / 2, e)

/-- Stability bit of frame k, false beyond the end of the sequence. -/
def bitAt (bits : List Bool) (k : ℕ) : Bool :=
  bits.getD k false

/-- Three consecutive stable frames starting at k: the witness that a run of
length at least 3 exists at or after k. -/
def winAt (bits : List Bool) (k : ℕ) : Prop :=
  bitAt bits k = true ∧ bitAt bits (k + 1) = true ∧ bitAt bits (k + 2) = true

instance (bits : List Bool) (k : ℕ) : Decidable (winAt bits k) := by
  unfold winAt; infer_instance

/-- One candidate crop of one cell in one frame, characterised by the two
scalar statistics the code computes for it: its mean brightness and its mean
absolute difference against the cell baseline.  The id field identifies the
crop. -/
structure FaceCand where
  brightness : ℚ
  diff : ℚ
  id : ℕ
deriving DecidableEq, Repr

/-- The per cell update of CardSolver.process_frame_for_faces
(src/solver.py lines 422 to 427): reject the crop when its mean brightness
exceeds 170, otherwise replace the best crop when the difference score
strictly exceeds the best score so far.  The state is the pair max_diffs[i],
card_faces.get(i). -/
def process_frame_for_faces (st : ℚ × Option ℕ) (c : FaceCand) : ℚ × Option ℕ :=
  if 170 < c.brightness then st
  else if st.1 < c.diff then (c.diff, some c.id) else st

/-- The whole stream of candidates of one cell, folded from the initial state
max_diffs[i] = 0 with no retained face (src/solver.py lines 174 and 351). -/
def trackCell (cands : List FaceCand) : ℚ × Option ℕ :=
  cands.foldl process_frame_for_faces (0, none)

/-- The pairwise score enumeration of find_pairs (src/solver.py lines
459 to 464): for each position pair i less than j of the ascending index
list, the triple (similarity, first index, second index). -/
def allPairScores (sim : ℕ → ℕ → ℚ) : List ℕ → List (ℚ × ℕ × ℕ)
  | [] => []
  | i :: rest => (rest.map (fun j => (sim i j, i, j))) ++ allPairScores sim rest

/-- The greedy selection loop of find_pairs (src/solver.py lines 470 to 485):
walk triples in score order, skip a pair when either index is claimed,
accept and claim when the score strictly exceeds the cutoff, and stop as
soon as 12 pairs are accepted. -/
def greedySelect (cutoff : ℚ) :
    List (ℚ × ℕ × ℕ) → List (ℕ × ℕ) → Finset ℕ → List (ℕ × ℕ)
  | [], pairs, _ => pairs
  | (s, i, j) :: rest, pairs, matched =>
      if i ∈ matched ∨ j ∈ matched then greedySelect cutoff rest pairs matched
      else if cutoff < s then
        let pairs2 := pairs ++ [(i, j)]
        if pairs2.length = 12 then pairs2
        else greedySelect cutoff rest pairs2 (insert i (insert j matched))
      else if pairs.length = 12 then pairs
      else greedySelect cutoff rest pairs matched

/-- CardSolver.find_pairs (src/solver.py lines 451 to 492), abstracted over
the set of observed cell indices and the pairwise similarity scores computed
from the processed face crops.  The cutoff 0.4 is the value of the source. -/
def find_pairs (sim : ℕ → ℕ → ℚ) (faces : Finset ℕ) : List (ℕ × ℕ) :=
  greedySelect (2/5)
    (sortDescBy (fun t => t.1) (allPairScores sim (faces.sort (· ≤ ·)))) [] ∅

/-- JSON values as far as the layout files use them: integers and arrays.
The on disk text produced by json.dump and read back by json.load is in
exact bijection with this tree for such values. -/
inductive Jval where
  | jint : ℤ → Jval
  | jarr : List Jval → Jval

/-- Encoding of one corner point by save_locations_to_json
(src/matching.py line 130): the pair of its integer coordinates. -/
def encPoint (p : ℤ × ℤ) : Jval :=
  Jval.jarr [Jval.jint p.1, Jval.jint p.2]

/-- save_locations_to_json (src/matching.py lines 122 to 137): the written
JSON document for an ordered list of polygons. -/
def save_locations_to_json (locs : List (List (ℤ × ℤ))) : Jval :=
  Jval.jarr (locs.map (fun poly => Jval.jarr (poly.map encPoint)))

/-- Reading one corner point back from the JSON tree. -/
def decodePoint : Jval → Option (ℤ × ℤ)
  | Jval.jarr [Jval.jint a, Jval.jint b] => some (a, b)
  | _ => none

/-- Reading a JSON array elementwise. -/
def decodeArr {α : Type} (f : Jval → Option α) : Jval → Option (List α)
  | Jval.jarr l => l.mapM f
  | _ => none

/-- load_locations_from_json (src/matching.py lines 139 to 150): json.load
returns the stored structure unchanged; reading a well shaped document
yields the ordered list of polygons it holds. -/
def load_locations_from_json (j : Jval) : Option (List (List (ℤ × ℤ))) :=
  decodeArr (decodeArr decodePoint) j

/-! Concrete inputs used by witnesses and counterexamples. -/

/-- Example similarity: only the faces 0 and 1 look alike. -/
def exSim : ℕ → ℕ → ℚ :=
  fun i j => if i = 0 ∧ j = 1 then 1 else 0

/-- Example observed index set. -/
def exFaces : Finset ℕ := Finset.range 3

/-- Three detections, two of them heavily overlapping. -/
def exDets3 : List Det :=
  [⟨0, 0, 10, 10, 1⟩, ⟨1, 0, 10, 10, 1/2⟩, ⟨100, 0, 10, 10, 3/4⟩]

/-- Candidate crop stream of one cell: one too bright crop with a large
difference, then three acceptable crops. -/
def exCands : List FaceCand :=
  [⟨200, 9, 0⟩, ⟨100, 5, 1⟩, ⟨100, 7, 2⟩, ⟨100, 6, 3⟩]

/-- Forty nine pairwise disjoint unit detections. -/
def dets49 : List Det :=
  (List.range 49).map (fun k => ⟨3 * (k : ℤ), 0, 1, 1, 1⟩)

/-- A scale sweep whose first scale finds nothing and whose second scale
finds 49 disjoint detections. -/
def exScales5 : List (List Det) := [[], dets49]

/-- Twenty four pairwise disjoint unit detections: a scale that yields
exactly the expected cell count. -/
def dets24 : List Det :=
  (List.range 24).map (fun k => ⟨3 * (k : ℤ), 0, 1, 1, 1⟩)

/-- A single strong detection. -/
def exA : Det := ⟨0, 0, 10, 10, 1⟩

/-- A weaker detection far away from exA. -/
def exC : Det := ⟨100, 100, 10, 10, 1/2⟩

/-- A scale sweep where the two scales see two different cards. -/
def exScales6 : List (List Det) := [[exA], [exC]]

/-- A one cell layout. -/
def exPoly : List (List (ℤ × ℤ)) := [[(0, 0), (10, 0), (10, 10), (0, 10)]]

/-- A frame in which all 22 listed cells correlate perfectly with the face
down template. -/
def goodFrame : List ℚ := List.replicate 22 1

/-- Three consecutive stable frames. -/
def exFrames3 : List (List ℚ) := List.replicate 3 goodFrame

/-! Lemmas about the stable descending sort. -/

theorem mem_insertDescBy {α : Type} (key : α → ℚ) (x z : α) (l : List α) :
    z ∈ insertDescBy key x l ↔ z = x ∨ z ∈ l := by
  induction l with
  | nil => simp [insertDescBy]
  | cons y ys ih =>
      by_cases h : key x ≤ key y
      · simp only [insertDescBy, if_pos h, List.mem_cons, ih]
        tauto
      · simp only [insertDescBy, if_neg h, List.mem_cons]

theorem mem_sortDescBy_aux {α : Type} (key : α → ℚ) (z : α) :
    ∀ (l acc : List α),
      (z ∈ l.foldl (fun acc x => insertDescBy key x acc) acc ↔ z ∈ acc ∨ z ∈ l) := by
  intro l
  induction l with
  | nil => intro acc; simp
  | cons x xs ih =>
      intro acc
      simp only [List.foldl_cons]
      rw [ih, mem_insertDescBy]
      simp only [List.mem_cons]
      tauto

theorem mem_sortDescBy {α : Type} (key : α → ℚ) (z : α) (l : List α) :
    z ∈ sortDescBy key l ↔ z ∈ l := by
  unfold sortDescBy
  rw [mem_sortDescBy_aux]
  simp

theorem pairwise_insertDescBy {α : Type} (key : α → ℚ) (x : α) (l : List α)
    (h : l.Pairwise (fun a b => key b ≤ key a)) :
    (insertDescBy key x l).Pairwise (fun a b => key b ≤ key a) := by
  induction l with
  | nil => simp [insertDescBy]
  | cons y ys ih =>
      rcases List.pairwise_cons.mp h with ⟨hy, hys⟩
      by_cases hle : key x ≤ key y
      · simp only [insertDescBy, if_pos hle]
        refine List.pairwise_cons.mpr ⟨?_, ih hys⟩
        intro z hz
        rcases (mem_insertDescBy key x z ys).mp hz with rfl | hz
        · exact hle
        · exact hy z hz
      · simp only [insertDescBy, if_neg hle]
        refine List.pairwise_cons.mpr ⟨?_, h⟩
        intro z hz
        rcases List.mem_cons.mp hz with rfl | hz
        · exact le_of_lt (lt_of_not_le hle)
        · exact le_trans (hy z hz) (le_of_lt (lt_of_not_le hle))

theorem sorted_sortDescBy_aux {α : Type} (key : α → ℚ) :
    ∀ (l acc : List α), acc.Pairwise (fun a b => key b ≤ key a) →
      (l.foldl (fun acc x => insertDescBy key x acc) acc).Pairwise
        (fun a b => key b ≤ key a) := by
  intro l
  induction l with
  | nil => intro acc hacc; exact hacc
  | cons x xs ih =>
      intro acc hacc
      simp only [List.foldl_cons]
      exact ih _ (pairwise_insertDescBy key x acc hacc)

theorem sorted_sortDescBy {α : Type} (key : α → ℚ) (l : List α) :
    (sortDescBy key l).Pairwise (fun a b => key b ≤ key a) := by
  unfold sortDescBy
  exact sorted_sortDescBy_aux key l [] (List.Pairwise.nil)

/-! Lemmas about greedy non maximum suppression. -/

theorem nmsLoop_subset (t : ℚ) :
    ∀ (fuel : ℕ) (l : List Det), ∀ d ∈ nmsLoop t fuel l, d ∈ l := by
  intro fuel
  induction fuel with
  | zero =>
      intro l d hd
      cases l with
      | nil => simp [nmsLoop] at hd
      | cons best rest => simp [nmsLoop] at hd
  | succ fuel ih =>
      intro l d hd
      cases l with
      | nil => simp [nmsLoop] at hd
      | cons best rest =>
          simp only [nmsLoop] at hd
          rcases List.mem_cons.mp hd with rfl | hd
          · exact List.mem_cons_self _ _
          · exact List.mem_cons_of_mem _ (List.mem_of_mem_filter (ih _ d hd))

theorem nmsLoop_pairwise (t : ℚ) :
    ∀ (fuel : ℕ) (l : List Det),
      (nmsLoop t fuel l).Pairwise (fun b d => overlapFrac b d < t) := by
  intro fuel
  induction fuel with
  | zero =>
      intro l
      cases l with
      | nil => simp [nmsLoop]
      | cons best rest => simp [nmsLoop]
  | succ fuel ih =>
      intro l
      cases l with
      | nil => simp [nmsLoop]
      | cons best rest =>
          simp only [nmsLoop]
          refine List.pairwise_cons.mpr ⟨?_, ih _⟩
          intro d hd
          have hmem := nmsLoop_subset t fuel _ d hd
          exact of_decide_eq_true (List.mem_filter.mp hmem).2

theorem nmsLoop_covers (t : ℚ) :
    ∀ (fuel : ℕ) (l : List Det), l.length ≤ fuel →
      l.Pairwise (fun a b => b.score ≤ a.score) →
      ∀ d ∈ l, ∃ b ∈ nmsLoop t fuel l,
        d.score ≤ b.score ∧ (b = d ∨ t ≤ overlapFrac b d) := by
  intro fuel
  induction fuel with
  | zero =>
      intro l hl
      rw [Nat.le_zero, List.length_eq_zero] at hl
      subst hl
      simp
  | succ fuel ih =>
      intro l hl hsor d hd
      cases l with
      | nil => simp at hd
      | cons best rest =>
          rcases List.mem_cons.mp hd with rfl | hd
          · refine ⟨d, ?_, le_refl _, Or.inl rfl⟩
            simp only [nmsLoop]
            exact List.mem_cons_self _ _
          · have hscore : d.score ≤ best.score := (List.pairwise_cons.mp hsor).1 d hd
            by_cases hf : overlapFrac best d < t
            · have hdf : d ∈ rest.filter (fun d => decide (overlapFrac best d < t)) :=
                List.mem_filter.mpr ⟨hd, decide_eq_true hf⟩
              have hsor2 := ((List.pairwise_cons.mp hsor).2).filter
                (fun d => decide (overlapFrac best d < t))
              have hlen2 : (rest.filter
                  (fun d => decide (overlapFrac best d < t))).length ≤ fuel := by
                have h1 := List.length_filter_le
                  (fun d => decide (overlapFrac best d < t)) rest
                simp only [List.length_cons] at hl
                omega
              rcases ih _ hlen2 hsor2 d hdf with ⟨b, hb, hs, hrest⟩
              refine ⟨b, ?_, hs, hrest⟩
              simp only [nmsLoop]
              exact List.mem_cons_of_mem _ hb
            · refine ⟨best, ?_, hscore, Or.inr (le_of_not_lt hf)⟩
              simp only [nmsLoop]
              exact List.mem_cons_self _ _

/-- C3: greedy non maximum suppression keeps only input detections, any two
survivors overlap strictly below the 0.3 threshold when measured against the
earlier (hence higher scoring) kept box, and every detection is represented
by a kept detection of at least its score: either it is kept itself or it
was suppressed by a kept box overlapping it by at least the threshold. -/
theorem nms_suppression_correct (dets : List Det)
    (hpos : ∀ d ∈ dets, 0 < d.w ∧ 0 < d.h) :
    (∀ d ∈ nms dets, d ∈ dets) ∧
    (nms dets).Pairwise (fun b d => overlapFrac b d < 3/10) ∧
    (∀ d ∈ dets, ∃ b ∈ nms dets,
      d.score ≤ b.score ∧ (b = d ∨ 3/10 ≤ overlapFrac b d)) := by
  refine ⟨?_, nmsLoop_pairwise _ _ _, ?_⟩
  · intro d hd
    exact (mem_sortDescBy Det.score d dets).mp (nmsLoop_subset _ _ _ d hd)
  · intro d hd
    exact nmsLoop_covers (3/10) _ _ (le_refl _) (sorted_sortDescBy Det.score dets) d
      ((mem_sortDescBy Det.score d dets).mpr hd)

/-- Witness for C3 at a concrete detection list. -/
theorem nms_suppression_correct_witness :
    (∀ d ∈ nms exDets3, d ∈ exDets3) ∧
    (nms exDets3).Pairwise (fun b d => overlapFrac b d < 3/10) ∧
    (∀ d ∈ exDets3, ∃ b ∈ nms exDets3,
      d.score ≤ b.score ∧ (b = d ∨ 3/10 ≤ overlapFrac b d)) :=
  nms_suppression_correct exDets3 (by decide)

/-! Lemmas about the face tracker. -/

theorem foldl_faces_mono (l : List FaceCand) :
    ∀ st : ℚ × Option ℕ, st.1 ≤ (l.foldl process_frame_for_faces st).1 := by
  induction l with
  | nil => intro st; exact le_refl _
  | cons c cs ih =>
      intro st
      refine le_trans ?_ (ih (process_frame_for_faces st c))
      unfold process_frame_for_faces
      by_cases h1 : 170 < c.brightness
      · rw [if_pos h1]
      · rw [if_neg h1]
        by_cases h2 : st.1 < c.diff
        · rw [if_pos h2]; exact le_of_lt h2
        · rw [if_neg h2]

theorem foldl_faces_ub (l : List FaceCand) :
    ∀ (st : ℚ × Option ℕ) (c : FaceCand), c ∈ l → ¬ 170 < c.brightness →
      c.diff ≤ (l.foldl process_frame_for_faces st).1 := by
  induction l with
  | nil => simp
  | cons c0 cs ih =>
      intro st c hc hb
      rcases List.mem_cons.mp hc with rfl | hc
      · simp only [List.foldl_cons]
        refine le_trans ?_ (foldl_faces_mono cs (process_frame_for_faces st c))
        unfold process_frame_for_faces
        rw [if_neg hb]
        by_cases h2 : st.1 < c.diff
        · rw [if_pos h2]
        · rw [if_neg h2]; exact le_of_not_lt h2
      · exact ih _ c hc hb

theorem foldl_faces_attain (l : List FaceCand) :
    ∀ st : ℚ × Option ℕ,
      l.foldl process_frame_for_faces st = st ∨
      ∃ c ∈ l, ¬ 170 < c.brightness ∧
        (l.foldl process_frame_for_faces st).1 = c.diff ∧
        (l.foldl process_frame_for_faces st).2 = some c.id := by
  induction l with
  | nil => intro st; exact Or.inl rfl
  | cons c0 cs ih =>
      intro st
      simp only [List.foldl_cons]
      by_cases h1 : 170 < c0.brightness
      · have hst : process_frame_for_faces st c0 = st := by
          unfold process_frame_for_faces; rw [if_pos h1]
        rw [hst]
        rcases ih st with h | ⟨c, hc, h⟩
        · exact Or.inl h
        · exact Or.inr ⟨c, List.mem_cons_of_mem _ hc, h⟩
      · by_cases h2 : st.1 < c0.diff
        · have hst : process_frame_for_faces st c0 = (c0.diff, some c0.id) := by
            unfold process_frame_for_faces; rw [if_neg h1, if_pos h2]
          rw [hst]
          rcases ih (c0.diff, some c0.id) with h | ⟨c, hc, h⟩
          · rw [h]
            exact Or.inr ⟨c0, List.mem_cons_self _ _, h1, rfl, rfl⟩
          · exact Or.inr ⟨c, List.mem_cons_of_mem _ hc, h⟩
        · have hst : process_frame_for_faces st c0 = st := by
            unfold process_frame_for_faces; rw [if_neg h1, if_neg h2]
          rw [hst]
          rcases ih st with h | ⟨c, hc, h⟩
          · exact Or.inl h
          · exact Or.inr ⟨c, List.mem_cons_of_mem _ hc, h⟩

/-- C2: when a cell retains a crop, the retained difference score is exactly
the maximum difference score over the non rejected candidates (those whose
mean brightness does not exceed 170), and the retained crop is one of the
candidates attaining it.  Replacement only happens on a strict increase. -/
theorem face_tracker_max_retention (cands : List FaceCand) (k : ℕ)
    (h : (trackCell cands).2 = some k) :
    (∀ c ∈ cands, ¬ 170 < c.brightness → c.diff ≤ (trackCell cands).1) ∧
    (∃ c ∈ cands, ¬ 170 < c.brightness ∧ c.id = k ∧
      c.diff = (trackCell cands).1) := by
  constructor
  · intro c hc hb
    exact foldl_faces_ub cands _ c hc hb
  · rcases foldl_faces_attain cands (0, none) with he | ⟨c, hc, hb, h1, h2⟩
    · unfold trackCell at h
      rw [he] at h
      simp at h
    · unfold trackCell at h
      rw [h2] at h
      refine ⟨c, hc, hb, ?_, ?_⟩
      · exact Option.some.inj h
      · unfold trackCell
        rw [h1]

/-- Witness for C2 at a concrete candidate stream: the too bright crop with
score 9 is rejected and crop 2 with score 7, the largest accepted score, is
retained. -/
theorem face_tracker_max_retention_witness :
    (trackCell exCands).2 = some 2 ∧
    ((∀ c ∈ exCands, ¬ 170 < c.brightness → c.diff ≤ (trackCell exCands).1) ∧
     (∃ c ∈ exCands, ¬ 170 < c.brightness ∧ c.id = 2 ∧
       c.diff = (trackCell exCands).1)) :=
  ⟨by decide, face_tracker_max_retention exCands 2 (by decide)⟩

/-! Lemmas about the JSON round trip. -/

theorem mapM_decodePoint (poly : List (ℤ × ℤ)) :
    (poly.map encPoint).mapM decodePoint = some poly := by
  induction poly with
  | nil => rfl
  | cons p ps ih =>
      simp only [List.map_cons, List.mapM_cons, encPoint, decodePoint, ih,
        Option.bind_eq_bind, Option.some_bind, Option.pure_def, Prod.mk.eta]

theorem decodeArr_encPoly (poly : List (ℤ × ℤ)) :
    decodeArr decodePoint (Jval.jarr (poly.map encPoint)) = some poly := by
  simp only [decodeArr, mapM_decodePoint]

/-- C8: saving an ordered list of cell polygons and loading the saved
document reproduces the identical ordered list with identical coordinates. -/
theorem save_load_roundtrip (locs : List (List (ℤ × ℤ))) :
    load_locations_from_json (save_locations_to_json locs) = some locs := by
  unfold load_locations_from_json save_locations_to_json
  simp only [decodeArr]
  induction locs with
  | nil => rfl
  | cons poly rest ih =>
      simp only [List.map_cons, List.mapM_cons, decodeArr_encPoly, ih,
        Option.bind_eq_bind, Option.some_bind, Option.pure_def]

/-- Witness for C8 at a concrete layout. -/
theorem save_load_roundtrip_witness :
    load_locations_from_json (save_locations_to_json exPoly) = some exPoly :=
  save_load_roundtrip exPoly

/-! Lemmas about the pair solver. -/

theorem allPairScores_mem (sim : ℕ → ℕ → ℚ) (l : List ℕ)
    (hs : l.Sorted (· < ·)) :
    ∀ s i j, (s, i, j) ∈ allPairScores sim l → s = sim i j ∧ i < j := by
  induction l with
  | nil => simp [allPairScores]
  | cons a rest ih =>
      intro s i j hm
      rcases List.mem_append.mp hm with hm | hm
      · rcases List.mem_map.mp hm with ⟨j0, hj0, he⟩
        simp only [Prod.mk.injEq] at he
        obtain ⟨h1, h2, h3⟩ := he
        subst h2
        subst h3
        exact ⟨h1.symm, (List.sorted_cons.mp hs).1 _ hj0⟩
      · exact ih (List.Sorted.of_cons hs) s i j hm

theorem greedySelect_spec (c : ℚ) :
    ∀ (l : List (ℚ × ℕ × ℕ)) (pairs : List (ℕ × ℕ)) (matched : Finset ℕ),
      pairs.length < 12 →
      (∀ p ∈ pairs, p.1 ∈ matched ∧ p.2 ∈ matched) →
      pairs.Pairwise (fun p q => p.1 ≠ q.1 ∧ p.1 ≠ q.2 ∧ p.2 ≠ q.1 ∧ p.2 ≠ q.2) →
      (greedySelect c l pairs matched).length ≤ 12 ∧
      (greedySelect c l pairs matched).Pairwise
        (fun p q => p.1 ≠ q.1 ∧ p.1 ≠ q.2 ∧ p.2 ≠ q.1 ∧ p.2 ≠ q.2) ∧
      (∀ p ∈ greedySelect c l pairs matched,
        p ∈ pairs ∨ ∃ s, (s, p.1, p.2) ∈ l ∧ c < s) := by
  intro l
  induction l with
  | nil =>
      intro pairs matched hlen hmem hdisj
      exact ⟨le_of_lt hlen, hdisj, fun p hp => Or.inl hp⟩
  | cons t rest ih =>
      obtain ⟨s, i, j⟩ := t
      intro pairs matched hlen hmem hdisj
      simp only [greedySelect]
      by_cases hskip : i ∈ matched ∨ j ∈ matched
      · rw [if_pos hskip]
        rcases ih pairs matched hlen hmem hdisj with ⟨hl, hd, hm⟩
        refine ⟨hl, hd, fun p hp => ?_⟩
        rcases hm p hp with h | ⟨s0, hs0, hc0⟩
        · exact Or.inl h
        · exact Or.inr ⟨s0, List.mem_cons_of_mem _ hs0, hc0⟩
      · rw [if_neg hskip]
        push_neg at hskip
        obtain ⟨hi, hj⟩ := hskip
        have hcross : ∀ p ∈ pairs, p.1 ≠ i ∧ p.1 ≠ j ∧ p.2 ≠ i ∧ p.2 ≠ j := by
          intro p hp
          obtain ⟨h1, h2⟩ := hmem p hp
          exact ⟨fun he => hi (he ▸ h1), fun he => hj (he ▸ h1),
            fun he => hi (he ▸ h2), fun he => hj (he ▸ h2)⟩
        have hdisj2 : (pairs ++ [(i, j)]).Pairwise
            (fun p q => p.1 ≠ q.1 ∧ p.1 ≠ q.2 ∧ p.2 ≠ q.1 ∧ p.2 ≠ q.2) := by
          rw [List.pairwise_append]
          refine ⟨hdisj, List.pairwise_singleton _ _, ?_⟩
          intro p hp q hq
          rw [List.mem_singleton] at hq
          subst hq
          exact hcross p hp
        by_cases hcut : c < s
        · rw [if_pos hcut]
          by_cases h12 : (pairs ++ [(i, j)]).length = 12
          · rw [if_pos h12]
            refine ⟨le_of_eq h12, hdisj2, fun p hp => ?_⟩
            rcases List.mem_append.mp hp with hp | hp
            · exact Or.inl hp
            · rw [List.mem_singleton] at hp
              subst hp
              exact Or.inr ⟨s, List.mem_cons_self _ _, hcut⟩
          · rw [if_neg h12]
            have hlen2 : (pairs ++ [(i, j)]).length < 12 := by
              rw [List.length_append] at h12 ⊢
              simp only [List.length_singleton] at h12 ⊢
              omega
            have hmem2 : ∀ p ∈ pairs ++ [(i, j)],
                p.1 ∈ insert i (insert j matched) ∧ p.2 ∈ insert i (insert j matched) := by
              intro p hp
              rcases List.mem_append.mp hp with hp | hp
              · obtain ⟨h1, h2⟩ := hmem p hp
                exact ⟨Finset.mem_insert_of_mem (Finset.mem_insert_of_mem h1),
                  Finset.mem_insert_of_mem (Finset.mem_insert_of_mem h2)⟩
              · rw [List.mem_singleton] at hp
                subst hp
                exact ⟨Finset.mem_insert_self _ _,
                  Finset.mem_insert_of_mem (Finset.mem_insert_self _ _)⟩
            rcases ih (pairs ++ [(i, j)]) (insert i (insert j matched))
              hlen2 hmem2 hdisj2 with ⟨hl, hd, hm⟩
            refine ⟨hl, hd, fun p hp => ?_⟩
            rcases hm p hp with h | ⟨s0, hs0, hc0⟩
            · rcases List.mem_append.mp h with h | h
              · exact Or.inl h
              · rw [List.mem_singleton] at h
                subst h
                exact Or.inr ⟨s, List.mem_cons_self _ _, hcut⟩
            · exact Or.inr ⟨s0, List.mem_cons_of_mem _ hs0, hc0⟩
        · rw [if_neg hcut, if_neg (Nat.ne_of_lt hlen)]
          rcases ih pairs matched hlen hmem hdisj with ⟨hl, hd, hm⟩
          refine ⟨hl, hd, fun p hp => ?_⟩
          rcases hm p hp with h | ⟨s0, hs0, hc0⟩
          · exact Or.inl h
          · exact Or.inr ⟨s0, List.mem_cons_of_mem _ hs0, hc0⟩

/-- C1: the pair solver never returns two pairs sharing a cell index, every
returned pair has similarity strictly above the 0.4 cutoff, and at most 12
pairs are returned. -/
theorem find_pairs_exclusivity (sim : ℕ → ℕ → ℚ) (faces : Finset ℕ) :
    (find_pairs sim faces).Pairwise
      (fun p q => p.1 ≠ q.1 ∧ p.1 ≠ q.2 ∧ p.2 ≠ q.1 ∧ p.2 ≠ q.2) ∧
    (∀ p ∈ find_pairs sim faces, (2 : ℚ)/5 < sim p.1 p.2) ∧
    (find_pairs sim faces).length ≤ 12 := by
  have h := greedySelect_spec (2/5)
    (sortDescBy (fun t => t.1) (allPairScores sim (faces.sort (· ≤ ·)))) [] ∅
    (by norm_num) (by simp) List.Pairwise.nil
  unfold find_pairs
  refine ⟨h.2.1, ?_, h.1⟩
  intro p hp
  rcases h.2.2 p hp with hmem | ⟨s, hs, hc⟩
  · simp at hmem
  · have hap : (s, p.1, p.2) ∈ allPairScores sim (faces.sort (· ≤ ·)) :=
      (mem_sortDescBy _ _ _).mp hs
    have h2 := allPairScores_mem sim _ (Finset.sort_sorted_lt faces) s p.1 p.2 hap
    rw [← h2.1]
    exact hc

/-- Witness for C1 at a concrete similarity table and index set. -/
theorem find_pairs_exclusivity_witness :
    (find_pairs exSim exFaces).Pairwise
      (fun p q => p.1 ≠ q.1 ∧ p.1 ≠ q.2 ∧ p.2 ≠ q.1 ∧ p.2 ≠ q.2) ∧
    (∀ p ∈ find_pairs exSim exFaces, (2 : ℚ)/5 < exSim p.1 p.2) ∧
    (find_pairs exSim exFaces).length ≤ 12 :=
  find_pairs_exclusivity exSim exFaces

/-- C10: in every returned pair the first index is strictly smaller than the
second, because candidate pairs are enumerated over the ascending sorted
index list with the smaller index first and accepted pairs keep this
orientation. -/
theorem find_pairs_ordered (sim : ℕ → ℕ → ℚ) (faces : Finset ℕ) :
    ∀ p ∈ find_pairs sim faces, p.1 < p.2 := by
  have h := greedySelect_spec (2/5)
    (sortDescBy (fun t => t.1) (allPairScores sim (faces.sort (· ≤ ·)))) [] ∅
    (by norm_num) (by simp) List.Pairwise.nil
  unfold find_pairs
  intro p hp
  rcases h.2.2 p hp with hmem | ⟨s, hs, _⟩
  · simp at hmem
  · have hap : (s, p.1, p.2) ∈ allPairScores sim (faces.sort (· ≤ ·)) :=
      (mem_sortDescBy _ _ _).mp hs
    exact (allPairScores_mem sim _ (Finset.sort_sorted_lt faces) s p.1 p.2 hap).2

unseal Rat.mul Rat.inv in
/-- Witness for C10 at a concrete similarity table and index set: the pair
(0, 1) is returned and its indices are in ascending order. -/
theorem find_pairs_ordered_witness :
    (0, 1) ∈ find_pairs exSim exFaces ∧ (0 : ℕ) < 1 := by
  have hsort : exFaces.sort (· ≤ ·) = [0, 1, 2] := by
    unfold exFaces
    rw [Finset.sort_range]
    rfl
  have hmem : (0, 1) ∈ find_pairs exSim exFaces := by
    unfold find_pairs
    rw [hsort]
    decide
  exact ⟨hmem, find_pairs_ordered exSim exFaces (0, 1) hmem⟩

/-! Lemmas about the scale sweep of the Localizer. -/

theorem distTo24_le_24 (n : ℕ) (h : n ≤ 48) : distTo24 n ≤ 24 := by
  unfold distTo24
  omega

theorem sweepGo_exact24 :
    ∀ (l : List (List Det)) (best : List Det),
      (∃ raw ∈ l, (nms raw).length = 24) →
      ∃ raw ∈ l, sweepGo l best = nms raw ∧ (nms raw).length = 24 := by
  intro l
  induction l with
  | nil =>
      rintro best ⟨raw, hm, _⟩
      simp at hm
  | cons d rest ih =>
      intro best hex
      simp only [sweepGo]
      by_cases h24 : (nms d).length = 24
      · rw [if_pos h24]
        exact ⟨d, List.mem_cons_self _ _, rfl, h24⟩
      · rw [if_neg h24]
        have hex2 : ∃ raw ∈ rest, (nms raw).length = 24 := by
          rcases hex with ⟨raw, hm, h⟩
          rcases List.mem_cons.mp hm with rfl | hm
          · exact absurd h h24
          · exact ⟨raw, hm, h⟩
        by_cases hrep : distTo24 (nms d).length < distTo24 best.length ∨ best = []
        · rw [if_pos hrep]
          rcases ih (nms d) hex2 with ⟨raw, hm, he, hl⟩
          exact ⟨raw, List.mem_cons_of_mem _ hm, he, hl⟩
        · rw [if_neg hrep]
          rcases ih best hex2 with ⟨raw, hm, he, hl⟩
          exact ⟨raw, List.mem_cons_of_mem _ hm, he, hl⟩

theorem sweepGo_single :
    ∀ (l : List (List Det)) (best : List Det),
      sweepGo l best = best ∨ ∃ raw ∈ l, sweepGo l best = nms raw := by
  intro l
  induction l with
  | nil => intro best; exact Or.inl rfl
  | cons d rest ih =>
      intro best
      simp only [sweepGo]
      by_cases h24 : (nms d).length = 24
      · rw [if_pos h24]
        exact Or.inr ⟨d, List.mem_cons_self _ _, rfl⟩
      · rw [if_neg h24]
        by_cases hrep : distTo24 (nms d).length < distTo24 best.length ∨ best = []
        · rw [if_pos hrep]
          rcases ih (nms d) with h | ⟨e, hm, he⟩
          · exact Or.inr ⟨d, List.mem_cons_self _ _, h⟩
          · exact Or.inr ⟨e, List.mem_cons_of_mem _ hm, he⟩
        · rw [if_neg hrep]
          rcases ih best with h | ⟨e, hm, he⟩
          · exact Or.inl h
          · exact Or.inr ⟨e, List.mem_cons_of_mem _ hm, he⟩

theorem sweepGo_min :
    ∀ (l : List (List Det)) (best : List Det),
      (∀ raw ∈ l, (nms raw).length ≤ 48) →
      (∀ raw ∈ l, (nms raw).length ≠ 24) →
      (sweepGo l best = best ∧
        ∀ raw ∈ l, distTo24 best.length ≤ distTo24 (nms raw).length) ∨
      (∃ raw ∈ l, sweepGo l best = nms raw ∧
        distTo24 (nms raw).length ≤ distTo24 best.length ∧
        ∀ raw2 ∈ l, distTo24 (nms raw).length ≤ distTo24 (nms raw2).length) := by
  intro l
  induction l with
  | nil =>
      intro best _ _
      exact Or.inl ⟨rfl, by simp⟩
  | cons d rest ih =>
      intro best hcap hne24
      have hcapr : ∀ raw ∈ rest, (nms raw).length ≤ 48 :=
        fun raw h => hcap raw (List.mem_cons_of_mem _ h)
      have hner : ∀ raw ∈ rest, (nms raw).length ≠ 24 :=
        fun raw h => hne24 raw (List.mem_cons_of_mem _ h)
      simp only [sweepGo]
      rw [if_neg (hne24 d (List.mem_cons_self _ _))]
      by_cases hrep : distTo24 (nms d).length < distTo24 best.length ∨ best = []
      · rw [if_pos hrep]
        have hdb : distTo24 (nms d).length ≤ distTo24 best.length := by
          rcases hrep with h | h
          · exact le_of_lt h
          · rw [h]
            simp only [List.length_nil]
            exact le_trans (distTo24_le_24 _ (hcap d (List.mem_cons_self _ _)))
              (le_of_eq (by unfold distTo24; omega))
        rcases ih (nms d) hcapr hner with ⟨heq, hall⟩ | ⟨e, hm, heq, hle, hall⟩
        · refine Or.inr ⟨d, List.mem_cons_self _ _, heq, hdb, ?_⟩
          intro raw2 h2
          rcases List.mem_cons.mp h2 with rfl | h2
          · exact le_refl _
          · exact hall raw2 h2
        · refine Or.inr ⟨e, List.mem_cons_of_mem _ hm, heq, le_trans hle hdb, ?_⟩
          intro raw2 h2
          rcases List.mem_cons.mp h2 with rfl | h2
          · exact hle
          · exact hall raw2 h2
      · rw [if_neg hrep]
        push_neg at hrep
        obtain ⟨hge, _⟩ := hrep
        have hbd : distTo24 best.length ≤ distTo24 (nms d).length := hge
        rcases ih best hcapr hner with ⟨heq, hall⟩ | ⟨e, hm, heq, hle, hall⟩
        · refine Or.inl ⟨heq, ?_⟩
          intro raw2 h2
          rcases List.mem_cons.mp h2 with rfl | h2
          · exact hbd
          · exact hall raw2 h2
        · refine Or.inr ⟨e, List.mem_cons_of_mem _ hm, heq, hle, ?_⟩
          intro raw2 h2
          rcases List.mem_cons.mp h2 with rfl | h2
          · exact le_trans hle hbd
          · exact hall raw2 h2

unseal Rat.add Rat.mul Rat.inv Rat.sub in
/-- C5 counterexample: with a first scale that finds nothing (suppressed
count 0, distance 24 from the target) and a second scale that finds 49
disjoint detections (distance 25), the sweep returns the second scale
because an empty running best is always replaced, so the returned scale is
not the one whose suppressed count is closest to 24. -/
theorem scale_sweep_not_closest :
    (∀ raw ∈ exScales5, (nms raw).length ≠ 24) ∧
    (∃ raw ∈ exScales5, distTo24 (nms raw).length <
      distTo24 (detect_card_locations exScales5).length) := by
  decide

/-- C5 as amended: the sweep returns the suppressed detections of a scale
that yields exactly 24 of them when such a scale exists, unconditionally;
otherwise, provided no scale keeps more than 48 suppressed detections (so
that an empty scale is never strictly closer to 24 than the running best it
replaces), it returns the suppressed detections of a scale achieving the
minimum distance to 24 among all scales tried. -/
theorem scale_sweep_selection (perScale : List (List Det)) :
    ((∃ raw ∈ perScale, (nms raw).length = 24) →
      ∃ raw ∈ perScale, detect_card_locations perScale = nms raw ∧
        (nms raw).length = 24) ∧
    (perScale ≠ [] →
      (∀ raw ∈ perScale, (nms raw).length ≤ 48) →
      (∀ raw ∈ perScale, (nms raw).length ≠ 24) →
      ∃ raw ∈ perScale, detect_card_locations perScale = nms raw ∧
        ∀ raw2 ∈ perScale,
          distTo24 (nms raw).length ≤ distTo24 (nms raw2).length) := by
  constructor
  · intro hex
    rcases sweepGo_exact24 perScale [] hex with ⟨raw, hm, he, h24⟩
    exact ⟨raw, hm, he, h24⟩
  · intro hne hcap hne24
    obtain ⟨d, rest, rfl⟩ := List.exists_cons_of_ne_nil hne
    have hcapr : ∀ raw ∈ rest, (nms raw).length ≤ 48 :=
      fun raw h => hcap raw (List.mem_cons_of_mem _ h)
    have hner : ∀ raw ∈ rest, (nms raw).length ≠ 24 :=
      fun raw h => hne24 raw (List.mem_cons_of_mem _ h)
    unfold detect_card_locations
    simp only [sweepGo]
    rw [if_neg (hne24 d (List.mem_cons_self _ _)), if_pos (Or.inr trivial)]
    rcases sweepGo_min rest (nms d) hcapr hner with ⟨heq, hall⟩ | ⟨e, hm, heq, hle, hall⟩
    · refine ⟨d, List.mem_cons_self _ _, heq, ?_⟩
      intro raw2 h2
      rcases List.mem_cons.mp h2 with rfl | h2
      · exact le_refl _
      · exact hall raw2 h2
    · refine ⟨e, List.mem_cons_of_mem _ hm, heq, ?_⟩
      intro raw2 h2
      rcases List.mem_cons.mp h2 with rfl | h2
      · exact hle
      · exact hall raw2 h2

unseal Rat.add Rat.mul Rat.inv Rat.sub in
/-- Witness for the amended C5, exercising both branches concretely: a one
scale sweep whose scale yields exactly 24 suppressed detections, and a one
scale sweep without a 24 yielding scale. -/
theorem scale_sweep_selection_witness :
    (∃ raw ∈ [dets24], detect_card_locations [dets24] = nms raw ∧
      (nms raw).length = 24) ∧
    (∃ raw ∈ [[exA]], detect_card_locations [[exA]] = nms raw ∧
      ∀ raw2 ∈ [[exA]],
        distTo24 (nms raw).length ≤ distTo24 (nms raw2).length) :=
  ⟨(scale_sweep_selection [dets24]).1 (by decide),
   (scale_sweep_selection [[exA]]).2 (by decide) (by decide) (by decide)⟩

unseal Rat.add Rat.mul Rat.inv Rat.sub in
/-- C6 counterexample: for two scales that each localize a different card,
the code returns the suppressed detections of one single scale, which
differs from suppressing the pooled detections of both scales. -/
theorem localizer_not_pooled :
    detect_card_locations exScales6 ≠ localizer_pooled_spec exScales6 := by
  decide

theorem accumLoop_prefix :
    ∀ (l : List (List Det)) (acc : List Det),
      ∃ k, accumLoop l acc = acc ++ ((l.take k).flatten) := by
  intro l
  induction l with
  | nil =>
      intro acc
      exact ⟨0, by simp [accumLoop]⟩
  | cons fd rest ih =>
      intro acc
      simp only [accumLoop]
      by_cases h24 : (nms (acc ++ fd)).length = 24
      · rw [if_pos h24]
        exact ⟨1, by simp⟩
      · rw [if_neg h24]
        rcases ih (acc ++ fd) with ⟨k, hk⟩
        refine ⟨k + 1, ?_⟩
        rw [hk]
        simp [List.append_assoc]

/-- C6 as amended: inside detect_card_locations each scale is suppressed
separately and the returned list is the suppressed set of a single scale;
pooling detections into one set that is then suppressed as a whole happens
across frames, in the accumulation loop of solve_frames, whose pool is
always the concatenation of the results of a prefix of the sampled
frames. -/
theorem localizer_per_scale_suppression (perScale : List (List Det))
    (hne : perScale ≠ []) :
    (∃ raw ∈ perScale, detect_card_locations perScale = nms raw) ∧
    (∀ frameDets : List (List Det),
      ∃ k, accumLoop frameDets [] = (frameDets.take k).flatten) := by
  constructor
  · obtain ⟨d, rest, rfl⟩ := List.exists_cons_of_ne_nil hne
    unfold detect_card_locations
    simp only [sweepGo]
    by_cases h24 : (nms d).length = 24
    · rw [if_pos h24]
      exact ⟨d, List.mem_cons_self _ _, rfl⟩
    · rw [if_neg h24, if_pos (Or.inr trivial)]
      rcases sweepGo_single rest (nms d) with h | ⟨e, hm, he⟩
      · exact ⟨d, List.mem_cons_self _ _, h⟩
      · exact ⟨e, List.mem_cons_of_mem _ hm, he⟩
  · intro frameDets
    rcases accumLoop_prefix frameDets [] with ⟨k, hk⟩
    exact ⟨k, by simpa using hk⟩

/-- Witness for the amended C6 at a concrete one scale sweep. -/
theorem localizer_per_scale_suppression_witness :
    (∃ raw ∈ [[exA]], detect_card_locations [[exA]] = nms raw) ∧
    (∀ frameDets : List (List Det),
      ∃ k, accumLoop frameDets [] = (frameDets.take k).flatten) :=
  localizer_per_scale_suppression [[exA]] (by decide)

/-! Lemmas about the empty detection fallback. -/

theorem sweepGo_all_empty :
    ∀ l : List (List Det), (∀ raw ∈ l, raw = ([] : List Det)) →
      sweepGo l [] = [] := by
  intro l
  induction l with
  | nil => intro _; rfl
  | cons d rest ih =>
      intro h
      have hd : d = [] := h d (List.mem_cons_self _ _)
      subst hd
      simp only [sweepGo]
      have hnil : nms ([] : List Det) = [] := rfl
      rw [hnil]
      rw [if_neg (by simp), if_pos (Or.inr trivial)]
      exact ih (fun raw hr => h raw (List.mem_cons_of_mem _ hr))

theorem accumLoop_all_empty :
    ∀ (l : List (List Det)) (acc : List Det), (∀ fd ∈ l, fd = ([] : List Det)) →
      accumLoop l acc = acc := by
  intro l
  induction l with
  | nil => intro acc _; rfl
  | cons fd rest ih =>
      intro acc h
      have hfd : fd = [] := h fd (List.mem_cons_self _ _)
      subst hfd
      simp only [accumLoop, List.append_nil]
      by_cases h24 : (nms acc).length = 24
      · rw [if_pos h24]
      · rw [if_neg h24]
        exact ih acc (fun fd hf => h fd (List.mem_cons_of_mem _ hf))

/-- C9: when template matching yields no detection at any scale of any
sampled frame, the Localizer returns an empty list on each frame, and the
layout update of solve_frames keeps the previously known layout unchanged
when one exists, and ends the session early (returns none) without any
failure when no previous layout exists either. -/
theorem empty_detection_fallback (perFrame : List (List (List Det)))
    (prev : List (List (ℤ × ℤ)))
    (h : ∀ f ∈ perFrame, ∀ raw ∈ f, raw = ([] : List Det)) :
    (∀ d ∈ perFrame.map detect_card_locations, d = ([] : List Det)) ∧
    (prev ≠ [] → solve_frames_layout (perFrame.map detect_card_locations) prev = some prev) ∧
    (prev = [] → solve_frames_layout (perFrame.map detect_card_locations) prev = none) := by
  have hall : ∀ d ∈ perFrame.map detect_card_locations, d = ([] : List Det) := by
    intro d hd
    rcases List.mem_map.mp hd with ⟨f, hf, rfl⟩
    exact sweepGo_all_empty f (h f hf)
  have hacc : accumLoop (perFrame.map detect_card_locations) [] = [] :=
    accumLoop_all_empty _ [] hall
  refine ⟨hall, ?_, ?_⟩
  · intro hprev
    unfold solve_frames_layout
    rw [hacc]
    have hnil : nms ([] : List Det) = [] := rfl
    rw [hnil, if_pos rfl, if_neg hprev]
  · intro hprev
    unfold solve_frames_layout
    rw [hacc]
    have hnil : nms ([] : List Det) = [] := rfl
    rw [hnil, if_pos rfl, if_pos hprev]

/-- Witness for C9 at a concrete frame list and previous layout. -/
theorem empty_detection_fallback_witness :
    (∀ d ∈ ([[[]]] : List (List (List Det))).map detect_card_locations,
      d = ([] : List Det)) ∧
    (exPoly ≠ [] →
      solve_frames_layout (([[[]]] : List (List (List Det))).map detect_card_locations)
        exPoly = some exPoly) ∧
    (exPoly = [] →
      solve_frames_layout (([[[]]] : List (List (List Det))).map detect_card_locations)
        exPoly = none) :=
  empty_detection_fallback [[[]]] exPoly (by decide)

/-! Lemmas about the row major ordering of cell centroids. -/

theorem mem_insIdx (le : ℕ → ℕ → Bool) (x z : ℕ) (l : List ℕ) :
    z ∈ insIdx le x l ↔ z = x ∨ z ∈ l := by
  induction l with
  | nil => simp [insIdx]
  | cons y ys ih =>
      by_cases h : le y x = true
      · simp only [insIdx, if_pos h, List.mem_cons, ih]
        tauto
      · simp only [insIdx, if_neg h, List.mem_cons]

theorem insIdx_congr (le le2 : ℕ → ℕ → Bool) (x : ℕ) (l : List ℕ)
    (h : ∀ y ∈ l, le y x = le2 y x) :
    insIdx le x l = insIdx le2 x l := by
  induction l with
  | nil => rfl
  | cons y ys ih =>
      simp only [insIdx]
      rw [h y (List.mem_cons_self _ _)]
      by_cases hc : le2 y x = true
      · rw [if_pos hc, if_pos hc, ih (fun z hz => h z (List.mem_cons_of_mem _ hz))]
      · rw [if_neg hc, if_neg hc]

theorem sortIdx_congr_aux (le le2 : ℕ → ℕ → Bool) :
    ∀ (l acc : List ℕ),
      (∀ y ∈ acc, ∀ x ∈ l, le y x = le2 y x) →
      (∀ y ∈ l, ∀ x ∈ l, le y x = le2 y x) →
      l.foldl (fun acc x => insIdx le x acc) acc =
        l.foldl (fun acc x => insIdx le2 x acc) acc := by
  intro l
  induction l with
  | nil => intro acc _ _; rfl
  | cons x xs ih =>
      intro acc hacc hl
      simp only [List.foldl_cons]
      have h1 : insIdx le x acc = insIdx le2 x acc :=
        insIdx_congr le le2 x acc (fun y hy => hacc y hy x (List.mem_cons_self _ _))
      rw [h1]
      apply ih (insIdx le2 x acc)
      · intro y hy x2 hx2
        rcases (mem_insIdx le2 x y acc).mp hy with rfl | hy
        · exact hl y (List.mem_cons_self _ _) x2 (List.mem_cons_of_mem _ hx2)
        · exact hacc y hy x2 (List.mem_cons_of_mem _ hx2)
      · intro y hy x2 hx2
        exact hl y (List.mem_cons_of_mem _ hy) x2 (List.mem_cons_of_mem _ hx2)

theorem sortIdx_congr (le le2 : ℕ → ℕ → Bool) (l : List ℕ)
    (hl : ∀ y ∈ l, ∀ x ∈ l, le y x = le2 y x) :
    sortIdx le l = sortIdx le2 l := by
  unfold sortIdx
  exact sortIdx_congr_aux le le2 l [] (by simp) hl

theorem perturbX_length (cents : List (ℚ × ℚ)) (jit : List ℚ)
    (hlen : jit.length = cents.length) :
    (perturbX cents jit).length = cents.length := by
  unfold perturbX
  rw [List.length_zipWith]
  omega

theorem perturbX_getD (cents : List (ℚ × ℚ)) (jit : List ℚ) (i : ℕ)
    (hlen : jit.length = cents.length) (hi : i < cents.length) :
    (perturbX cents jit).getD i (0, 0) =
      ((cents.getD i (0, 0)).1 + jit.getD i 0, (cents.getD i (0, 0)).2) := by
  have hip : i < (perturbX cents jit).length := by
    rw [perturbX_length cents jit hlen]; exact hi
  have hij : i < jit.length := by omega
  rw [List.getD_eq_getElem _ _ hip, List.getD_eq_getElem _ _ hi,
    List.getD_eq_getElem _ _ hij]
  unfold perturbX
  simp [List.getElem_zipWith]

/-- C7 as amended: the row major permutation is unchanged by any horizontal
jitter of the centroids smaller than half the row bin size, provided any two
distinct centroids falling in the same row bucket are horizontally separated
by at least the bin size; vertical coordinates, and hence row buckets, are
untouched by horizontal jitter. -/
theorem row_major_jitter_stable (binSize : ℚ) (cents : List (ℚ × ℚ))
    (jit : List ℚ)
    (hb : 0 < binSize)
    (hlen : jit.length = cents.length)
    (hjit : ∀ δ ∈ jit, |δ| < binSize / 2)
    (hsep : ∀ i, i < cents.length → ∀ j, j < cents.length → i ≠ j →
      binIndex binSize (cents.getD i (0, 0)).2 =
        binIndex binSize (cents.getD j (0, 0)).2 →
      binSize ≤ |(cents.getD i (0, 0)).1 - (cents.getD j (0, 0)).1|) :
    lexsortPerm binSize (perturbX cents jit) = lexsortPerm binSize cents := by
  unfold lexsortPerm
  rw [perturbX_length cents jit hlen]
  apply sortIdx_congr
  intro i hi j hj
  rw [List.mem_range] at hi hj
  rw [perturbX_getD cents jit i hlen hi, perturbX_getD cents jit j hlen hj]
  unfold keyLeB lexKey
  simp only [decide_eq_decide]
  have hdi : |jit.getD i 0| < binSize / 2 := by
    have : i < jit.length := by omega
    rw [List.getD_eq_getElem _ _ this]
    exact hjit _ (List.getElem_mem this)
  have hdj : |jit.getD j 0| < binSize / 2 := by
    have : j < jit.length := by omega
    rw [List.getD_eq_getElem _ _ this]
    exact hjit _ (List.getElem_mem this)
  constructor
  · rintro (hlt | ⟨heq, hle⟩)
    · exact Or.inl hlt
    · refine Or.inr ⟨heq, ?_⟩
      by_cases hij : i = j
      · subst hij
        linarith
      · rcases le_abs.mp (hsep i hi j hj hij heq) with h1 | h1
        · have d1 := abs_lt.mp hdi
          have d2 := abs_lt.mp hdj
          linarith
        · have d1 := abs_lt.mp hdi
          have d2 := abs_lt.mp hdj
          linarith
  · rintro (hlt | ⟨heq, hle⟩)
    · exact Or.inl hlt
    · refine Or.inr ⟨heq, ?_⟩
      by_cases hij : i = j
      · subst hij
        linarith
      · rcases le_abs.mp (hsep i hi j hj hij heq) with h1 | h1
        · have d1 := abs_lt.mp hdi
          have d2 := abs_lt.mp hdj
          linarith
        · have d1 := abs_lt.mp hdi
          have d2 := abs_lt.mp hdj
          linarith

unseal Rat.add Rat.mul Rat.inv Rat.sub in
/-- C7 counterexample: two centroids of the same row bucket sitting one
pixel apart swap their order under a horizontal jitter of 1.9, although the
jitter is smaller than half the row bin size 4, so the claimed invariance
fails without a separation assumption. -/
theorem row_major_jitter_counterexample :
    lexsortPerm 4 [(1, 4), (2, 4)] = [0, 1] ∧
    perturbX [(1, 4), (2, 4)] [19/10, -(19/10)] =
      [(1 + 19/10, 4), (2 + -(19/10), 4)] ∧
    lexsortPerm 4 [(1 + 19/10, 4), (2 + -(19/10), 4)] = [1, 0] ∧
    (∀ δ ∈ [(19 : ℚ)/10, -(19/10)], |δ| < 4 / 2) := by
  decide

unseal Rat.add Rat.mul Rat.inv Rat.sub in
/-- Witness for the amended C7 at two well separated centroids of one row. -/
theorem row_major_jitter_stable_witness :
    lexsortPerm 4 (perturbX [((0 : ℚ), (0 : ℚ)), (10, 0)] [1, -1]) =
      lexsortPerm 4 [((0 : ℚ), (0 : ℚ)), (10, 0)] :=
  row_major_jitter_stable 4 [(0, 0), (10, 0)] [1, -1]
    (by norm_num) (by decide) (by decide) (by decide)

/-! Lemmas about the stable run scanner of the Session Stabilizer. -/

theorem scanRuns_nil_none (acc : List (ℕ × ℕ)) (cnt i : ℕ) :
    scanRuns acc none cnt i [] = acc := rfl

theorem scanRuns_nil_some (acc : List (ℕ × ℕ)) (s cnt i : ℕ) :
    scanRuns acc (some s) cnt i [] =
      if 3 ≤ cnt then acc ++ [(s, i - 1)] else acc := rfl

theorem scanRuns_cons_true (acc : List (ℕ × ℕ)) (cur : Option ℕ) (cnt i : ℕ)
    (rest : List Bool) :
    scanRuns acc cur cnt i (true :: rest) =
      scanRuns acc (some (cur.getD i)) (cnt + 1) (i + 1) rest := rfl

theorem scanRuns_cons_false_none (acc : List (ℕ × ℕ)) (cnt i : ℕ)
    (rest : List Bool) :
    scanRuns acc none cnt i (false :: rest) =
      scanRuns acc none 0 (i + 1) rest := rfl

theorem scanRuns_cons_false_some (acc : List (ℕ × ℕ)) (s cnt i : ℕ)
    (rest : List Bool) :
    scanRuns acc (some s) cnt i (false :: rest) =
      if 3 ≤ cnt then scanRuns (acc ++ [(s, i - 1)]) none 0 (i + 1) rest
      else scanRuns acc none 0 (i + 1) rest := rfl

theorem scanRuns_acc :
    ∀ (l : List Bool) (acc : List (ℕ × ℕ)) (cur : Option ℕ) (cnt i : ℕ),
      scanRuns acc cur cnt i l = acc ++ scanRuns [] cur cnt i l := by
  intro l
  induction l with
  | nil =>
      intro acc cur cnt i
      cases cur with
      | none => simp [scanRuns_nil_none]
      | some s =>
          rw [scanRuns_nil_some, scanRuns_nil_some]
          by_cases h : 3 ≤ cnt
          · rw [if_pos h, if_pos h]
            simp
          · rw [if_neg h, if_neg h]
            simp
  | cons b rest ih =>
      intro acc cur cnt i
      cases b with
      | true =>
          rw [scanRuns_cons_true, scanRuns_cons_true, ih, ih]
      | false =>
          cases cur with
          | none =>
              rw [scanRuns_cons_false_none, scanRuns_cons_false_none, ih, ih]
          | some s =>
              rw [scanRuns_cons_false_some, scanRuns_cons_false_some]
              by_cases h : 3 ≤ cnt
              · rw [if_pos h, if_pos h, ih, ih ([] ++ [(s, i - 1)]) none 0 (i + 1)]
                simp
              · rw [if_neg h, if_neg h, ih, ih]

theorem bitAt_true_lt (bits : List Bool) (k : ℕ) (h : bitAt bits k = true) :
    k < bits.length := by
  by_contra hk
  push_neg at hk
  unfold bitAt at h
  rw [List.getD_eq_default _ _ hk] at h
  simp at h

theorem scanRuns_spec (bits : List Bool) :
    ∀ (l : List Bool) (i cnt : ℕ) (cur : Option ℕ),
      l = bits.drop i →
      ((cur = none ∧ cnt = 0 ∧ (i = 0 ∨ bitAt bits (i - 1) = false) ∧
          (∀ k, k + 2 < i → ¬ winAt bits k)) ∨
        (∃ s, cur = some s ∧ 1 ≤ cnt ∧ i = s + cnt ∧
          (∀ k, s ≤ k → k < i → bitAt bits k = true) ∧
          (s = 0 ∨ bitAt bits (s - 1) = false) ∧
          (∀ k, k + 2 < s → ¬ winAt bits k))) →
      (scanRuns [] cur cnt i l = [] → ∀ k, ¬ winAt bits k) ∧
      (∀ s0 e0 tail, scanRuns [] cur cnt i l = (s0, e0) :: tail →
        s0 + 2 ≤ e0 ∧ e0 < bits.length ∧
        (∀ k, s0 ≤ k → k ≤ e0 → bitAt bits k = true) ∧
        (s0 = 0 ∨ bitAt bits (s0 - 1) = false) ∧
        (e0 = bits.length - 1 ∨ bitAt bits (e0 + 1) = false) ∧
        (∀ k, k + 2 < s0 → ¬ winAt bits k)) := by
  intro l
  induction l with
  | nil =>
      intro i cnt cur hdrop hstate
      have hlen : bits.length ≤ i := List.drop_eq_nil_iff.mp hdrop.symm
      rcases hstate with ⟨rfl, hcnt, hlm, hnw⟩ | ⟨s, rfl, h1, his, hrun, hlm, hnw⟩
      · rw [scanRuns_nil_none]
        constructor
        · intro _ k hk
          obtain ⟨w1, w2, w3⟩ := hk
          have hk3 := bitAt_true_lt bits (k + 2) w3
          by_cases hki : k + 2 < i
          · exact hnw k hki ⟨w1, w2, w3⟩
          · omega
        · intro s0 e0 tail heq
          simp at heq
      · rw [scanRuns_nil_some]
        by_cases h3 : 3 ≤ cnt
        · rw [if_pos h3]
          constructor
          · intro habs
            simp at habs
          · intro s0 e0 tail heq
            rw [List.nil_append] at heq
            injection heq with hpair htail
            simp only [Prod.mk.injEq] at hpair
            obtain ⟨rfl, rfl⟩ := hpair
            have hi1 : bitAt bits (i - 1) = true := hrun (i - 1) (by omega) (by omega)
            have hilen := bitAt_true_lt bits (i - 1) hi1
            have hieq : i = bits.length := by omega
            refine ⟨by omega, by omega, ?_, hlm, ?_, hnw⟩
            · intro k hk1 hk2
              exact hrun k hk1 (by omega)
            · left
              omega
        · rw [if_neg h3]
          constructor
          · intro _ k hk
            obtain ⟨w1, w2, w3⟩ := hk
            have hk1 := bitAt_true_lt bits k w1
            have hk3 := bitAt_true_lt bits (k + 2) w3
            by_cases hks : k + 2 < s
            · exact hnw k hks ⟨w1, w2, w3⟩
            · by_cases hks2 : s ≤ k
              · omega
              · push_neg at hks2
                rcases hlm with rfl | hf
                · omega
                · have hcase : s - 1 = k ∨ s - 1 = k + 1 ∨ s - 1 = k + 2 := by omega
                  rcases hcase with hc | hc | hc
                  · rw [hc, w1] at hf; simp at hf
                  · rw [hc, w2] at hf; simp at hf
                  · rw [hc, w3] at hf; simp at hf
          · intro s0 e0 tail heq
            simp at heq
  | cons b rest ih =>
      intro i cnt cur hdrop hstate
      have hlend : i < bits.length := by
        have hc := congrArg List.length hdrop
        simp only [List.length_cons, List.length_drop] at hc
        omega
      have hbi : bitAt bits i = b := by
        unfold bitAt
        rw [List.getD_eq_getElem?_getD]
        have h0 : (bits.drop i)[0]? = some b := by
          rw [← hdrop]
          simp
        rw [List.getElem?_drop, Nat.add_zero] at h0
        rw [h0]
        rfl
      have hdrop2 : rest = bits.drop (i + 1) := by
        have h1 : (b :: rest).drop 1 = (bits.drop i).drop 1 := by rw [hdrop]
        simpa [List.drop_drop, Nat.add_comm] using h1
      cases b with
      | true =>
          rw [scanRuns_cons_true]
          apply ih (i + 1) (cnt + 1) (some (cur.getD i)) hdrop2
          rcases hstate with ⟨rfl, rfl, hlm, hnw⟩ | ⟨s, rfl, h1, his, hrun, hlm, hnw⟩
          · right
            refine ⟨i, rfl, by omega, by omega, ?_, hlm, hnw⟩
            intro k hk1 hk2
            have hki : k = i := by omega
            rw [hki]
            exact hbi
          · right
            refine ⟨s, rfl, by omega, by omega, ?_, hlm, hnw⟩
            intro k hk1 hk2
            by_cases hki : k < i
            · exact hrun k hk1 hki
            · have hkeq : k = i := by omega
              rw [hkeq]
              exact hbi
      | false =>
          rcases hstate with ⟨rfl, rfl, hlm, hnw⟩ | ⟨s, rfl, h1, his, hrun, hlm, hnw⟩
          · rw [scanRuns_cons_false_none]
            apply ih (i + 1) 0 none hdrop2
            left
            refine ⟨rfl, rfl, Or.inr hbi, ?_⟩
            intro k hk hwin
            obtain ⟨w1, w2, w3⟩ := hwin
            by_cases hki : k + 2 < i
            · exact hnw k hki ⟨w1, w2, w3⟩
            · have hkeq : k + 2 = i := by omega
              rw [hkeq, hbi] at w3
              simp at w3
          · rw [scanRuns_cons_false_some]
            by_cases h3 : 3 ≤ cnt
            · rw [if_pos h3, scanRuns_acc]
              constructor
              · intro habs
                simp at habs
              · intro s0 e0 tail heq
                simp only [List.nil_append, List.singleton_append] at heq
                injection heq with hpair htail
                simp only [Prod.mk.injEq] at hpair
                obtain ⟨rfl, rfl⟩ := hpair
                have hi1 : bitAt bits (i - 1) = true := hrun (i - 1) (by omega) (by omega)
                have hilen := bitAt_true_lt bits (i - 1) hi1
                refine ⟨by omega, by omega, ?_, hlm, ?_, hnw⟩
                · intro k hk1 hk2
                  exact hrun k hk1 (by omega)
                · right
                  have hplus : i - 1 + 1 = i := by omega
                  rw [hplus]
                  exact hbi
            · rw [if_neg h3]
              apply ih (i + 1) 0 none hdrop2
              left
              refine ⟨rfl, rfl, Or.inr hbi, ?_⟩
              intro k hk hwin
              obtain ⟨w1, w2, w3⟩ := hwin
              by_cases hks : k + 2 < s
              · exact hnw k hks ⟨w1, w2, w3⟩
              · by_cases hsk : s ≤ k
                · by_cases hki : k + 2 = i
                  · rw [hki, hbi] at w3
                    simp at w3
                  · omega
                · push_neg at hsk
                  rcases hlm with rfl | hf
                  · omega
                  · have hcase : s - 1 = k ∨ s - 1 = k + 1 ∨ s - 1 = k + 2 := by omega
                    rcases hcase with hc | hc | hc
                    · rw [hc, w1] at hf; simp at hf
                    · rw [hc, w2] at hf; simp at hf
                    · rw [hc, w3] at hf; simp at hf

/-- C4: the Stabilizer records maximal runs of at least 3 consecutive stable
frames, a frame being stable when at least 22 per cell correlations strictly
exceed 0.6; when no such run exists both the baseline index and the start
index fall back to frame 0, and when the recorded run list is nonempty its
head is the first such run: a stable run of length at least 3, maximal on
both sides, before which no 3 consecutive stable frames occur, whose
midpoint becomes the baseline index and whose last frame becomes the start
index. -/
theorem stabilizer_first_stable_run (frames : List (List ℚ)) :
    ((∀ k, ¬ winAt (frames.map stableFrame) k) →
      stabilizerResult (frames.map stableFrame) = (0, 0)) ∧
    (∀ s e tail, allBackSequences (frames.map stableFrame) = (s, e) :: tail →
      stabilizerResult (frames.map stableFrame) = ((s + e) / 2, e) ∧
      s + 2 ≤ e ∧ e < frames.length ∧
      (∀ k, s ≤ k → k ≤ e → bitAt (frames.map stableFrame) k = true) ∧
      (s = 0 ∨ bitAt (frames.map stableFrame) (s - 1) = false) ∧
      (e = frames.length - 1 ∨ bitAt (frames.map stableFrame) (e + 1) = false) ∧
      (∀ k, k + 2 < s → ¬ winAt (frames.map stableFrame) k)) ∧
    ((∃ k, winAt (frames.map stableFrame) k) →
      allBackSequences (frames.map stableFrame) ≠ []) := by
  have hspec := scanRuns_spec (frames.map stableFrame) (frames.map stableFrame) 0 0 none
    (by simp) (Or.inl ⟨rfl, rfl, Or.inl rfl, fun k hk => absurd hk (by omega)⟩)
  have hlen : (frames.map stableFrame).length = frames.length := List.length_map _ _
  refine ⟨?_, ?_, ?_⟩
  · intro hnw
    unfold stabilizerResult
    rcases hseq : allBackSequences (frames.map stableFrame) with _ | ⟨⟨s, e⟩, tail⟩
    · rfl
    · exfalso
      have hb := hspec.2 s e tail hseq
      exact hnw s ⟨hb.2.2.1 s (le_refl s) (by omega),
        hb.2.2.1 (s + 1) (by omega) (by omega),
        hb.2.2.1 (s + 2) (by omega) (by omega)⟩
  · intro s e tail hseq
    have hb := hspec.2 s e tail hseq
    refine ⟨?_, hb.1, ?_, hb.2.2.1, hb.2.2.2.1, ?_, hb.2.2.2.2.2⟩
    · unfold stabilizerResult
      rw [hseq]
    · rw [← hlen]
      exact hb.2.1
    · rcases hb.2.2.2.2.1 with h | h
      · left
        rw [← hlen]
        exact h
      · right
        exact h
  · rintro ⟨k, hk⟩ hnil
    exact hspec.1 hnil k hk

unseal Rat.mul Rat.inv in
/-- Witness for C4 at three consecutive stable frames: the run (0, 2) is
recorded and the midpoint 1 becomes the baseline, 2 the start index. -/
theorem stabilizer_first_stable_run_witness :
    stabilizerResult (exFrames3.map stableFrame) = (1, 2) ∧
    (∀ k, 0 ≤ k → k ≤ 2 → bitAt (exFrames3.map stableFrame) k = true) := by
  have h := (stabilizer_first_stable_run exFrames3).2.1 0 2 [] (by decide)
  exact ⟨h.1, h.2.2.2.1⟩

end CardSolver
